import Mathlib

/-!
# Verification of the `ino` build core (`src/ino/commands/build.py`)

Shallow embedding of the toolchain-discovery, flag-assembly, library-indexing
and dependency-resolution logic of class `Build`, together with theorems
settling the specification claims.

Conventions:
* Library roots are identified by an abstract type `α` with decidable
  equality (in the source they are path strings).
* Python `set` values are modelled as duplicate-free `List`s; set equality
  is modelled via `List.toFinset`.
* Python iterates `set(used_libs) - scanned` in an unspecified order; we fix
  the enumeration order to the order of `used_libs`, which enumerates exactly
  that set because `used_libs` is duplicate-free.
-/

set_option autoImplicit false

namespace Ino

variable {α : Type} [DecidableEq α]

/-!
## Dependency-graph resolver (`Build.scan_dependencies`, lines 398-414)

The inner relocation pass is this Python loop, iterating over the snapshot
`used_libs[:]` while mutating the live list positionally:

```
i = 0
for ulib in used_libs[:]:
    if ulib in dep_libs:
        used_libs.append(used_libs.pop(i))
        dep_libs.remove(ulib)
    else:
        i += 1
```
-/

/-- One relocation pass: first argument is the snapshot `used_libs[:]` still
to be traversed, `i` is the live index, `live` is the current `used_libs`,
`deps` the current `dep_libs`.  `live.pop(i)` removes the element at index
`i` and appends it at the tail; `deps.remove u` removes `u` from the set. -/
def relocStep : List α → Nat → List α → List α → List α × List α
  | [], _, live, deps => (live, deps)
  | u :: rest, i, live, deps =>
    if u ∈ deps then
      relocStep rest i (live.eraseIdx i ++ [live.getD i u]) (deps.erase u)
    else
      relocStep rest (i + 1) live deps

/-- Processing one library inside the `for lib in set(used_libs) - scanned_libs`
loop: scan it (`scanF lib` is the result of `_scan_dependencies(lib, ...)`),
relocate already-used dependencies to the tail, then append the remaining
(newly discovered) dependencies. -/
def processLib (scanF : α → List α) (used : List α) (lib : α) : List α :=
  let r := relocStep used 0 used (scanF lib)
  r.1 ++ r.2

/-- The whole `for lib in set(used_libs) - scanned_libs` loop body: the
pending set is computed once, before the loop starts. -/
def scanPass (scanF : α → List α) (used : List α) (pending : List α) : List α :=
  pending.foldl (processLib scanF) used

/-- The outer `while scanned_libs != set(used_libs)` loop, fuel-indexed.
State is `(used_libs, scanned_libs)`; `scanned_libs` is kept as a
duplicate-free list and compared as a set. -/
def resolveIter (scanF : α → List α) : Nat → List α × List α → List α × List α
  | 0, st => st
  | n + 1, (used, scanned) =>
    if used.toFinset = scanned.toFinset then (used, scanned)
    else
      let pending := used.filter (fun u => decide (u ∉ scanned))
      resolveIter scanF n (scanPass scanF used pending, scanned ++ pending)

/-- `Build.scan_dependencies` steps 2-4: starting from the project-level scan
result `initialUsed` and an empty scanned set, iterate to the fixed point
(with explicit fuel) and return the final link order. -/
def scan_dependencies (scanF : α → List α) (initialUsed : List α) (fuel : Nat) :
    List α :=
  (resolveIter scanF fuel (initialUsed, [])).1

/-!
## Board model and flag assembly (`Build.setup_flags`, lines 186-243)

`SpaceList` (from `ino.utils`) is an ordered list of flag tokens joined with
spaces when rendered; we model it as `List String`.  `shlex.split` of the
user-supplied `--cppflags` string is modelled by passing the resulting token
list directly (`userCppTokens`).
-/

/-- Python's `\s` character class for byte strings: space, tab, newline,
carriage return, vertical tab, form feed.  Also the character set stripped
by `str.strip()`. -/
def pyWhitespace (c : Char) : Bool :=
  decide (c = ' ') || decide (c = '\t') || decide (c = '\n') ||
  decide (c = '\r') || decide (c = '\x0b') || decide (c = '\x0c')

/-- Helper for `pySplitSpace`: `acc` is the current field, reversed. -/
def splitSpaceAux : List Char → List Char → List String
  | [], acc => [String.mk acc.reverse]
  | c :: cs, acc =>
    if c = ' ' then String.mk acc.reverse :: splitSpaceAux cs []
    else splitSpaceAux cs (c :: acc)

/-- Python `str.split(' ')` with the explicit one-space separator: split at
every space, keeping empty fields.  Defined characterwise so that it
evaluates inside the kernel. -/
def pySplitSpace (s : String) : List String :=
  splitSpaceAux s.data []

/-- Python `str.upper()` for the ASCII identifiers it is applied to,
defined characterwise. -/
def pyToUpper (s : String) : String :=
  String.mk (s.data.map Char.toUpper)

/-- Python `str.strip()`: remove leading and trailing whitespace, defined
characterwise. -/
def pyStrip (s : String) : String :=
  String.mk
    (((s.data.dropWhile pyWhitespace).reverse.dropWhile pyWhitespace).reverse)

/-- The `board['build']` sub-dictionary: required keys `mcu`, `f_cpu`,
`board`, `variant` and optional keys `vid`, `pid`, `extra_flags`. -/
structure BoardBuild where
  mcu : String
  f_cpu : String
  board : String
  variant : String
  vid : Option String
  pid : Option String
  extra_flags : Option String

/-- A board profile as used by `setup_flags`: architecture plus build data. -/
structure BoardModel where
  arch : String
  build : BoardBuild

/-- The parts of the environment `self.e` read by `setup_flags`:
previously-discovered directories, the Arduino library version, and the
architecture's platform compiler flags string
(`platform_settings()[arch]['compiler']['cpp']['flags']`). -/
structure BuildEnv where
  arduino_core_dir : String
  arduino_system_dir : String
  arduino_variants_dir : String
  versionMajor : Bool
  versionAsInt : Nat
  platformCppFlagsRaw : String

/-- `'-mcpu=' if board['arch'] in ['sam'] else '-mmcu='` plus the MCU name. -/
def mcuFlag (board : BoardModel) : String :=
  (if board.arch = "sam" then "-mcpu=" else "-mmcu=") ++ board.build.mcu

/-- The `cppflags` sequence assembled by `setup_flags` (lines 192-233),
in source order: six hard-coded flags, then the user `--cppflags` tokens,
then platform flags, SAM system includes, USB macros, board extra flags and
the variant include path.  `os.path.join` is modelled with `"/"`. -/
def setupCppflags (e : BuildEnv) (board : BoardModel)
    (userCppTokens : List String) : List String :=
  let cppflags := [mcuFlag board,
    "-DF_CPU=" ++ board.build.f_cpu,
    "-DARDUINO=" ++ toString e.versionAsInt,
    "-DARDUINO_" ++ board.build.board,
    "-DARDUINO_ARCH_" ++ pyToUpper board.arch,
    "-I" ++ e.arduino_core_dir]
  let cppflags := cppflags ++ userCppTokens
  let cppflags := cppflags ++ pySplitSpace e.platformCppFlagsRaw
  let cppflags := cppflags ++
    (if board.arch = "sam" then
      ["-I" ++ e.arduino_system_dir ++ "/libsam",
       "-I" ++ e.arduino_system_dir ++ "/CMSIS/CMSIS/Include/",
       "-I" ++ e.arduino_system_dir ++ "/CMSIS/Device/ATMEL/"]
     else [])
  let cppflags := cppflags ++
    (match board.build.vid with
     | some v => ["-DUSB_VID=" ++ v]
     | none => [])
  let cppflags := cppflags ++
    (match board.build.pid with
     | some p => ["-DUSB_PID=" ++ p]
     | none => [])
  let cppflags := cppflags ++ (if board.arch = "sam" then ["-DUSBCON"] else [])
  let cppflags := cppflags ++
    (match board.build.extra_flags with
     | some ef =>
       ((pySplitSpace ef).map pyStrip).filter
         (fun f => f ≠ "\x7bbuild.usb_flags\x7d")
     | none => [])
  let cppflags := cppflags ++
    (if e.versionMajor then
      ["-I" ++ e.arduino_variants_dir ++ "/" ++ board.build.variant]
     else [])
  cppflags

/-!
## Toolchain discovery (`Build.discover`, lines 119-184)

`discover` performs a sequence of observable effects in source order:
directory lookups via `self.e.find_arduino_dir` (which, per the spec's
ToolchainLocator contract, probe the filesystem), then — only after those —
the architecture check against `tools_arch_mapping` (keys `avr`, `sam`),
which raises `Abort('Unknown architecture ...')` on a miss, and otherwise a
tool lookup for each toolset entry.  We model the effect trace. -/

/-- One observable effect of `discover`.  `findDir` is a
`find_arduino_dir` call (a filesystem probe), `findTool` a
`find_arduino_tool` call, `abortUnknownArch` the `Abort` raised when the
board architecture is missing from `tools_arch_mapping`. -/
inductive DiscEvent where
  | findDir (key : String)
  | findTool (key : String)
  | abortUnknownArch (arch : String)
  deriving DecidableEq

/-- Whether an event is a directory probe. -/
def DiscEvent.isFindDir : DiscEvent → Bool
  | .findDir _ => true
  | _ => false

/-- Whether an event is a tool lookup. -/
def DiscEvent.isFindTool : DiscEvent → Bool
  | .findTool _ => true
  | _ => false

/-- Whether an event is the unknown-architecture abort. -/
def DiscEvent.isAbort : DiscEvent → Bool
  | .abortUnknownArch _ => true
  | _ => false

/-- The inputs of `discover` that determine its effect trace. -/
structure DiscoverCtx where
  arch : String
  versionMajor : Bool

/-- The effect trace of `Build.discover`: core-dir and libraries-dir probes,
the SAM system-dir probe, the variants-dir probe, then either the
unknown-architecture abort (which ends the trace) or the six tool lookups
for `make`, `cc`, `cxx`, `ar`, `ld`, `objcopy`. -/
def discover (c : DiscoverCtx) : List DiscEvent :=
  [DiscEvent.findDir "arduino_core_dir", DiscEvent.findDir "arduino_libraries_dir"]
  ++ (if c.arch = "sam" then [DiscEvent.findDir "arduino_system_dir"] else [])
  ++ (if c.versionMajor then [DiscEvent.findDir "arduino_variants_dir"] else [])
  ++ (if c.arch ≠ "avr" ∧ c.arch ≠ "sam" then [DiscEvent.abortUnknownArch c.arch]
      else ["make", "cc", "cxx", "ar", "ld", "objcopy"].map DiscEvent.findTool)

/-!
## Dependency-file scanning (`Build._scan_dependencies`, lines 357-374)

For each library root `lib`, the source builds the regex
`re.compile(r'\s' + lib + re.escape(os.path.sep))` and records `lib` as
used when the regex matches somewhere in some line of the generated
dependency file and `lib` is not the directory being scanned.  Note the
asymmetry: the path separator is escaped but the library path is
interpolated **unescaped**, so regex-special characters inside the path
(such as the dots of `arduino-1.0.5`) are interpreted by the regex engine
rather than matched literally.  We embed the engine's behaviour on the
regex fragment such paths produce: every special-free character is a
literal single-character matcher and `.` matches any character except a
newline (quantifiers, classes and groups do not occur in filesystem
paths of that shape).  Strings are modelled as `List Char`. -/

/-- `listStartsWith pat s` holds when `pat` is a literal prefix of `s`. -/
def listStartsWith : List Char → List Char → Bool
  | [], _ => true
  | _ :: _, [] => false
  | p :: ps, x :: xs => decide (p = x) && listStartsWith ps xs

/-- The characters Python's `re` module treats as special — the set
`re.escape` would have escaped, had the source applied it to the library
path. -/
def reSpecialChars : List Char :=
  ['.', '^', '$', '*', '+', '?', '\x7b', '\x7d', '[', ']', '\\', '|',
   '(', ')']

/-- One character of the unescaped library-path pattern against one line
character: `.` matches every character except a newline (no `re.DOTALL`),
any other character matches itself. -/
def reCharMatches (p c : Char) : Bool :=
  if p = '.' then decide (c ≠ '\n') else decide (p = c)

/-- The pattern `lib` (interpolated unescaped) followed by the escaped
separator, matched against the beginning of `s`: each library-path
character consumes one character of `s` via `reCharMatches`, then the
separator must occur literally. -/
def libSepPrefix : List Char → Char → List Char → Bool
  | [], _, [] => false
  | [], sep, x :: _ => decide (x = sep)
  | _ :: _, _, [] => false
  | p :: ps, sep, x :: xs => reCharMatches p x && libSepPrefix ps sep xs

/-- `regex.search(line)` for `re.compile(r'\s' + lib + re.escape(sep))`:
at some position of the line, a whitespace character is followed by a
match of the unescaped library-path pattern and then the literal
separator. -/
def depLineMatches (lib : List Char) (sep : Char) : List Char → Bool
  | [] => false
  | c :: rest =>
    (pyWhitespace c && libSepPrefix lib sep rest) ||
    depLineMatches lib sep rest

/-- The matcher the claim describes, following its words: a literal
occurrence of the root's path immediately preceded by a whitespace
character and immediately followed by the path separator.  Kept for
comparison with `depLineMatches`, which embeds the source's unescaped
regex; the two coincide exactly when the path is free of regex special
characters. -/
def litLineMatches (lib : List Char) (sep : Char) : List Char → Bool
  | [] => false
  | c :: rest =>
    (pyWhitespace c && listStartsWith (lib ++ [sep]) rest) ||
    litLineMatches lib sep rest

/-- The used-library set computed by `_scan_dependencies` from the lines of
the dependency file: every root of `lib_dirs` distinct from the scanned
directory whose regex matches some line.  (The Python result is a `set`; we
list the members in `lib_dirs` order.) -/
def scanDepsFile (dir : List Char) (lib_dirs : List (List Char)) (sep : Char)
    (fileLines : List (List Char)) : List (List Char) :=
  lib_dirs.filter
    (fun lib => decide (lib ≠ dir) && fileLines.any (depLineMatches lib sep))

/-!
## Library include-flag indexing (`Build.recursive_inc_lib_flags`, lines 327-355)

A directory tree is a node with a base name and an ordered list of child
directories (the order models the directory-walk order).  `list_subdirs`
lives in `ino/utils.py`, which is absent from the sources; its three uses
are modelled from the spec. -/

/-- A directory: base name plus immediate subdirectories in walk order. -/
inductive FSTree where
  | node (name : String) (children : List FSTree)

/-- Base name of a directory. -/
def FSTree.name : FSTree → String
  | .node n _ => n

/-- Immediate subdirectories of a directory. -/
def FSTree.children : FSTree → List FSTree
  | .node _ cs => cs

/-- Modelled from the spec: `list_subdirs(d, exclude=excl)` from `ino.utils`
(not under `src/`) returns the immediate subdirectories of `d` whose base
name is not in `excl`, in walk order (spec §4.3). -/
def list_subdirs_excl (excl : List String) (t : FSTree) : List FSTree :=
  t.children.filter (fun c => decide (c.name ∉ excl))

/-- Modelled from the spec: `list_subdirs(d, include=incl)` returns the
immediate subdirectories of `d` whose base name is in `incl` (spec §4.3:
"select the child matching targetArch"). -/
def list_subdirs_incl (incl : List String) (t : FSTree) : List FSTree :=
  t.children.filter (fun c => decide (c.name ∈ incl))

/-- Modelled from the spec: `list_subdirs(d, recursive=True, exclude=excl)`
returns the full paths of every nested subdirectory of `d`, skipping (and
not descending into) directories whose base name is in `excl`; `path` is the
path of `d` itself (spec §4.3: "recurse into its descendants (same exclusion
rule) adding every nested directory"). -/
def list_subdirs_rec (excl : List String) (t : FSTree) (path : String) :
    List String :=
  match t with
  | .node _ cs =>
    (cs.attach.map (fun c =>
      if c.1.name ∈ excl then []
      else
        let p := path ++ "/" ++ c.1.name
        p :: list_subdirs_rec excl c.1 p)).flatten
termination_by sizeOf t
decreasing_by
  simp only [FSTree.node.sizeOf_spec]
  have := List.sizeOf_lt_of_mem c.2
  omega

/-- The directory names excluded from library indexing (`lib_excludes`). -/
def lib_excludes : List String := ["extras", "examples"]

/-- The include flags contributed by the subtree handling of one immediate
subdirectory `sub` of a library root (lines 342-353): an `arch` directory
picks the child matching the board architecture, else the child named
`default`, else contributes nothing; any other directory contributes itself
and all nested directories. -/
def incFlagsOfSubdir (board_arch : String) (sub : FSTree) (subpath : String) :
    List String :=
  if sub.name = "arch" then
    let arch_subdir := list_subdirs_incl [board_arch] sub
    let arch_subdir :=
      if arch_subdir.isEmpty then list_subdirs_incl ["default"] sub
      else arch_subdir
    match arch_subdir with
    | [] => []
    | c :: _ =>
      let cpath := subpath ++ "/" ++ c.name
      ("-I" ++ cpath) ::
        (list_subdirs_rec lib_excludes c cpath).map (fun p => "-I" ++ p)
  else
    ("-I" ++ subpath) ::
      (list_subdirs_rec lib_excludes sub subpath).map (fun p => "-I" ++ p)

/-- `Build.recursive_inc_lib_flags(libdirs, board_arch)`: for each library
root (given as its tree and its path), an include flag for the root itself,
then the contributions of each non-excluded immediate subdirectory. -/
def recursive_inc_lib_flags (libdirs : List (FSTree × String))
    (board_arch : String) : List String :=
  (libdirs.map (fun dp =>
    ("-I" ++ dp.2) ::
      ((list_subdirs_excl lib_excludes dp.1).map (fun sub =>
        incFlagsOfSubdir board_arch sub (dp.2 ++ "/" ++ sub.name))).flatten)).flatten

/-!
## The pipeline (`Build.run` + `Build.scan_dependencies` tail, lines 416-425)

`run` sequences discovery, flag assembly, the dependency closure, and then
extends `cppflags` with the include flags of every resolved library
(line 417).  Its observable outputs, for fixed filesystem/scan inputs, are
the final flag sequence and the library link order.  `libSnapshot` gives the
directory snapshot (tree and path) of each library root. -/

/-- All inputs that determine one pipeline run. -/
structure PipelineInputs (α : Type) where
  env : BuildEnv
  board : BoardModel
  userCppTokens : List String
  scanF : α → List α
  initialUsed : List α
  fuel : Nat
  libSnapshot : α → FSTree × String

/-- The observable result of one pipeline run: the final `cppflags`
sequence (after line 417 appends the resolved libraries' include flags) and
the resolved link order `used_libs`. -/
def pipeline (inp : PipelineInputs α) : List String × List α :=
  let used := scan_dependencies inp.scanF inp.initialUsed inp.fuel
  (setupCppflags inp.env inp.board inp.userCppTokens ++
     recursive_inc_lib_flags (used.map inp.libSnapshot) inp.board.arch,
   used)

/-!
## Claim C1: position of the user-supplied preprocessor flags
-/

/-- C1 (counterexample): the user override flags are NOT appended after
every default flag.  For an `avr` board with platform base flag `-Os` and
user flag `-DFOO=1`, the user flag appears at index 6, strictly before the
platform base flag at index 7 — contradicting the claim that every user
token appears after all platform base flags. -/
theorem user_flags_precede_platform_flags :
    "-Os" ∈ setupCppflags ⟨"core", "sys", "var", true, 105, "-Os"⟩
      ⟨"avr", ⟨"atmega328p", "16000000L", "AVR_UNO", "standard", none, none, none⟩⟩
      ["-DFOO=1"] ∧
    (setupCppflags ⟨"core", "sys", "var", true, 105, "-Os"⟩
      ⟨"avr", ⟨"atmega328p", "16000000L", "AVR_UNO", "standard", none, none, none⟩⟩
      ["-DFOO=1"]).indexOf "-DFOO=1" <
    (setupCppflags ⟨"core", "sys", "var", true, 105, "-Os"⟩
      ⟨"avr", ⟨"atmega328p", "16000000L", "AVR_UNO", "standard", none, none, none⟩⟩
      ["-DFOO=1"]).indexOf "-Os" := by
  decide

/-- C1 (amended): for every board profile, environment and user token list,
`setup_flags` places the user `--cppflags` tokens immediately after the six
hard-coded flags (architecture/CPU flag, clock macro, version and identity
macros, core include) and immediately before all remaining default flags
(platform base flags, SAM system-library includes, USB macros, board extra
flags, variant include). -/
theorem user_flags_after_hardcoded_before_rest (e : BuildEnv)
    (board : BoardModel) (tokens : List String) :
    setupCppflags e board tokens =
      [mcuFlag board,
       "-DF_CPU=" ++ board.build.f_cpu,
       "-DARDUINO=" ++ toString e.versionAsInt,
       "-DARDUINO_" ++ board.build.board,
       "-DARDUINO_ARCH_" ++ pyToUpper board.arch,
       "-I" ++ e.arduino_core_dir]
      ++ tokens
      ++ (pySplitSpace e.platformCppFlagsRaw
          ++ (if board.arch = "sam" then
               ["-I" ++ e.arduino_system_dir ++ "/libsam",
                "-I" ++ e.arduino_system_dir ++ "/CMSIS/CMSIS/Include/",
                "-I" ++ e.arduino_system_dir ++ "/CMSIS/Device/ATMEL/"]
              else [])
          ++ (match board.build.vid with
              | some v => ["-DUSB_VID=" ++ v]
              | none => [])
          ++ (match board.build.pid with
              | some p => ["-DUSB_PID=" ++ p]
              | none => [])
          ++ (if board.arch = "sam" then ["-DUSBCON"] else [])
          ++ (match board.build.extra_flags with
              | some ef =>
                ((pySplitSpace ef).map pyStrip).filter
                  (fun f => f ≠ "\x7bbuild.usb_flags\x7d")
              | none => [])
          ++ (if e.versionMajor then
               ["-I" ++ e.arduino_variants_dir ++ "/" ++ board.build.variant]
              else [])) := by
  simp [setupCppflags]

/-!
## Claim C2: unknown architecture handling in `discover`
-/

/-- C2 (counterexample): for a board whose architecture `esp8266` is absent
from `tools_arch_mapping`, `discover` performs directory probes
(`find_arduino_dir` calls) before raising the unknown-architecture abort, so
the failure does not occur "before any filesystem probing".  The trace even
starts with a probe. -/
theorem probes_precede_unknown_arch_abort :
    discover ⟨"esp8266", true⟩ =
      [DiscEvent.findDir "arduino_core_dir",
       DiscEvent.findDir "arduino_libraries_dir",
       DiscEvent.findDir "arduino_variants_dir",
       DiscEvent.abortUnknownArch "esp8266"] ∧
    ((discover ⟨"esp8266", true⟩).takeWhile
        (fun ev => !ev.isAbort)).any DiscEvent.isFindDir = true := by
  decide

/-- C2 (amended): for every board profile whose architecture is absent from
`tools_arch_mapping`, `discover` fails with the unknown-architecture abort
as its final action — after the Arduino directory probes, but before any
tool lookup (`find_arduino_tool`) and hence before any external tool could
be invoked. -/
theorem unknown_arch_aborts_before_tool_lookup (c : DiscoverCtx)
    (h1 : c.arch ≠ "avr") (h2 : c.arch ≠ "sam") :
    (discover c).getLast? = some (DiscEvent.abortUnknownArch c.arch) ∧
    (discover c).any DiscEvent.isFindTool = false := by
  cases hM : c.versionMajor <;>
    simp [discover, h1, h2, hM, DiscEvent.isFindTool]

/-- C2 (witness): the amended theorem applied to a concrete unknown
architecture. -/
theorem unknown_arch_aborts_before_tool_lookup_witness :
    (discover ⟨"esp8266", false⟩).getLast? =
      some (DiscEvent.abortUnknownArch "esp8266") ∧
    (discover ⟨"esp8266", false⟩).any DiscEvent.isFindTool = false :=
  unknown_arch_aborts_before_tool_lookup ⟨"esp8266", false⟩
    (by decide) (by decide)

/-!
## Claims C3 and C4: concrete resolver scenarios
-/

/-- Once the scanned set equals the set of used libraries, the outer loop
stops: `resolveIter` returns the state unchanged for every remaining fuel. -/
theorem resolveIter_of_fixed (scanF : α → List α) (n : Nat)
    (used scanned : List α) (h : used.toFinset = scanned.toFinset) :
    resolveIter scanF n (used, scanned) = (used, scanned) := by
  cases n <;> simp [resolveIter, h]

/-- C3: for a project using two distinct libraries `A` and `B` directly,
with `A` preceding `B` in the used-library list, where scanning `B` reports
`A` as a dependency (and `A` has none), `resolve` relocates `A` to the end
and returns the link order `[B, A]`. -/
theorem resolve_moves_used_dependency_to_tail (A B : α) (hAB : A ≠ B)
    (fuel : Nat) (hf : 1 ≤ fuel) :
    scan_dependencies (fun l => if l = B then [A] else []) [A, B] fuel
      = [B, A] := by
  obtain ⟨n, rfl⟩ : ∃ n, fuel = n + 1 := ⟨fuel - 1, by omega⟩
  have hBA : B ≠ A := hAB.symm
  simp [scan_dependencies, resolveIter, scanPass, processLib, relocStep,
    hAB, hBA, List.eraseIdx, List.getD]
  rw [resolveIter_of_fixed]
  simp [Finset.pair_comm]

/-- C3 (witness): the concrete instance `A = 0`, `B = 1`, fuel 1. -/
theorem resolve_moves_used_dependency_to_tail_witness :
    (0 : Nat) ≠ 1 ∧
    scan_dependencies (fun l => if l = 1 then [0] else []) [0, 1] 1 = [1, 0] :=
  ⟨by decide, resolve_moves_used_dependency_to_tail 0 1 (by decide) 1 (by decide)⟩

/-- C4: for a project whose sources use exactly library `A`, where scanning
`A` reveals a dependency on a distinct library `B` not used directly (and
`B` has no dependencies), `resolve` returns `[A, B]`: the transitively
discovered library is appended after the directly used one. -/
theorem resolve_appends_transitive_dependency (A B : α) (hAB : A ≠ B)
    (fuel : Nat) (hf : 2 ≤ fuel) :
    scan_dependencies (fun l => if l = A then [B] else []) [A] fuel
      = [A, B] := by
  obtain ⟨n, rfl⟩ : ∃ n, fuel = n + 2 := ⟨fuel - 2, by omega⟩
  have hBA : B ≠ A := hAB.symm
  simp [scan_dependencies, resolveIter, scanPass, processLib, relocStep,
    hAB, hBA, List.eraseIdx, List.getD]
  have hne : ({A, B} : Finset α) ≠ {A} := by
    intro h
    have hBmem : B ∈ ({A} : Finset α) := by
      rw [← h]; simp
    simp only [Finset.mem_singleton] at hBmem
    exact hBA hBmem
  rw [if_neg hne, resolveIter_of_fixed]
  rfl

/-- C4 (witness): the concrete instance `A = 0`, `B = 1`, fuel 2. -/
theorem resolve_appends_transitive_dependency_witness :
    (0 : Nat) ≠ 1 ∧
    scan_dependencies (fun l => if l = 0 then [1] else []) [0] 2 = [0, 1] :=
  ⟨by decide, resolve_appends_transitive_dependency 0 1 (by decide) 2 (by decide)⟩

/-!
## Structure of the relocation pass

`relocStep s i live deps` is characterised in closed form when `live` has
the shape `kept ++ s ++ moved` and `i = kept.length` — the invariant the
Python loop maintains, starting from `kept = moved = []`.
-/

/-- `eraseIdx` at the index right after a known prefix drops the element
following the prefix. -/
theorem eraseIdx_append_length {γ : Type} (kept : List γ) (u : γ)
    (tl : List γ) :
    (kept ++ u :: tl).eraseIdx kept.length = kept ++ tl := by
  induction kept with
  | nil => rfl
  | cons a l ih => simp [List.eraseIdx, ih]

/-- `getD` at the index right after a known prefix returns the element
following the prefix. -/
theorem getD_append_length {γ : Type} (kept : List γ) (u : γ) (tl : List γ)
    (d : γ) :
    (kept ++ u :: tl).getD kept.length d = u := by
  induction kept with
  | nil => rfl
  | cons a l ih => simpa [List.getD] using ih

/-- Closed form of the relocation pass: entries of the remaining snapshot
`s` that are in `deps` move to the tail (after `moved`), the others stay in
place (after `kept`), and the dependencies that occurred in `s` are removed
from `deps`. -/
theorem relocStep_append (s : List α) : ∀ (kept moved deps : List α),
    s.Nodup → deps.Nodup →
    relocStep s kept.length (kept ++ s ++ moved) deps
      = (kept ++ s.filter (fun u => decide (u ∉ deps)) ++ moved
           ++ s.filter (fun u => decide (u ∈ deps)),
         deps.filter (fun u => decide (u ∉ s))) := by
  induction s with
  | nil =>
    intro kept moved deps _ _
    simp [relocStep]
  | cons u rest ih =>
    intro kept moved deps hs hd
    have hu : u ∉ rest := (List.nodup_cons.mp hs).1
    have hrest : rest.Nodup := (List.nodup_cons.mp hs).2
    by_cases h : u ∈ deps
    · simp only [relocStep, if_pos h]
      have hshape : kept ++ (u :: rest) ++ moved = kept ++ u :: (rest ++ moved) := by
        simp
      rw [hshape, eraseIdx_append_length, getD_append_length]
      have hshape2 : kept ++ (rest ++ moved) ++ [u] = kept ++ rest ++ (moved ++ [u]) := by
        simp
      rw [hshape2, ih kept (moved ++ [u]) (deps.erase u) hrest (hd.erase u)]
      congr 1
      · have h1 : rest.filter (fun x => decide (x ∉ deps.erase u))
            = rest.filter (fun x => decide (x ∉ deps)) := by
          apply List.filter_congr
          intro x hx
          have hxu : x ≠ u := fun e => hu (e ▸ hx)
          simp [List.mem_erase_of_ne hxu]
        have h2 : rest.filter (fun x => decide (x ∈ deps.erase u))
            = rest.filter (fun x => decide (x ∈ deps)) := by
          apply List.filter_congr
          intro x hx
          have hxu : x ≠ u := fun e => hu (e ▸ hx)
          simp [List.mem_erase_of_ne hxu]
        rw [h1, h2]
        simp [List.filter_cons, h]
      · rw [hd.erase_eq_filter, List.filter_filter]
        apply List.filter_congr
        intro x hx
        by_cases hxu : x = u <;> simp [hxu, List.mem_cons]
    · simp only [relocStep, if_neg h]
      have hlen : kept.length + 1 = (kept ++ [u]).length := by simp
      have hshape : kept ++ (u :: rest) ++ moved = (kept ++ [u]) ++ rest ++ moved := by
        simp
      rw [hlen, hshape, ih (kept ++ [u]) moved deps hrest hd]
      congr 1
      · simp [List.filter_cons, h]
      · apply List.filter_congr
        intro x hx
        have hxu : x ≠ u := fun e => h (e ▸ hx)
        simp [List.mem_cons, hxu]

/-- Closed form of processing one library: the relocation pass reorders the
current list, then the dependencies not yet used are appended. -/
theorem processLib_eq (scanF : α → List α) (used : List α) (lib : α)
    (hu : used.Nodup) (hd : (scanF lib).Nodup) :
    processLib scanF used lib
      = used.filter (fun u => decide (u ∉ scanF lib))
        ++ used.filter (fun u => decide (u ∈ scanF lib))
        ++ (scanF lib).filter (fun u => decide (u ∉ used)) := by
  have h := relocStep_append used [] [] (scanF lib) hu hd
  simp only [List.nil_append, List.append_nil, List.length_nil] at h
  simp [processLib, h]

/-- Filtering by membership is filtering by the negation of
non-membership. -/
theorem filter_mem_eq_filter_not_not (used deps : List α) :
    used.filter (fun u => decide (u ∈ deps))
      = used.filter (fun x => !(decide (x ∉ deps))) := by
  apply List.filter_congr
  intro x _
  simp

/-- Processing one library permutes the current list and appends the new
dependencies. -/
theorem processLib_perm_append (scanF : α → List α) (used : List α) (lib : α)
    (hu : used.Nodup) (hd : (scanF lib).Nodup) :
    (processLib scanF used lib).Perm
      (used ++ (scanF lib).filter (fun u => decide (u ∉ used))) := by
  rw [processLib_eq scanF used lib hu hd]
  apply List.Perm.append_right
  rw [filter_mem_eq_filter_not_not]
  exact List.filter_append_perm _ used

/-- Membership after processing one library: the old entries plus that
library's scanned dependencies. -/
theorem mem_processLib (scanF : α → List α) (used : List α) (lib : α)
    (hu : used.Nodup) (hd : (scanF lib).Nodup) (x : α) :
    x ∈ processLib scanF used lib ↔ x ∈ used ∨ x ∈ scanF lib := by
  rw [processLib_eq scanF used lib hu hd]
  simp only [List.mem_append, List.mem_filter, decide_eq_true_eq]
  tauto

/-- Processing one library preserves freedom from duplicates. -/
theorem processLib_nodup (scanF : α → List α) (used : List α) (lib : α)
    (hu : used.Nodup) (hd : (scanF lib).Nodup) :
    (processLib scanF used lib).Nodup := by
  apply ((processLib_perm_append scanF used lib hu hd).symm).nodup
  apply hu.append (hd.filter _)
  intro x hxu hxf
  rw [List.mem_filter, decide_eq_true_eq] at hxf
  exact hxf.2 hxu

/-- A whole inner pass over the pending libraries preserves freedom from
duplicates. -/
theorem scanPass_nodup (scanF : α → List α) (hs : ∀ l, (scanF l).Nodup) :
    ∀ (pending used : List α), used.Nodup →
      (scanPass scanF used pending).Nodup := by
  intro pending
  induction pending with
  | nil => intro used hu; exact hu
  | cons l ps ih =>
    intro used hu
    exact ih (processLib scanF used l) (processLib_nodup scanF used l hu (hs l))

/-- Membership after a whole inner pass: the old entries plus the scanned
dependencies of every pending library. -/
theorem mem_scanPass (scanF : α → List α) (hs : ∀ l, (scanF l).Nodup) :
    ∀ (pending used : List α), used.Nodup → ∀ x,
      (x ∈ scanPass scanF used pending ↔
        x ∈ used ∨ ∃ l ∈ pending, x ∈ scanF l) := by
  intro pending
  induction pending with
  | nil => intro used hu x; simp [scanPass]
  | cons l ps ih =>
    intro used hu x
    have h1 := ih (processLib scanF used l)
      (processLib_nodup scanF used l hu (hs l)) x
    have h2 := mem_processLib scanF used l hu (hs l) x
    simp only [scanPass, List.foldl_cons] at h1 ⊢
    rw [h1, h2]
    simp only [List.mem_cons]
    constructor
    · rintro ((hx | hx) | ⟨l', hl', hx⟩)
      · exact Or.inl hx
      · exact Or.inr ⟨l, Or.inl rfl, hx⟩
      · exact Or.inr ⟨l', Or.inr hl', hx⟩
    · rintro (hx | ⟨l', hl' | hl', hx⟩)
      · exact Or.inl (Or.inl hx)
      · exact Or.inl (Or.inr (hl' ▸ hx))
      · exact Or.inr ⟨l', hl', hx⟩

/-!
## Claim C10: the relocation pass permutes the pre-pass list
-/

/-- C10: the relocation pass performed while scanning one library permutes
the current used-library list before new dependencies are appended: entries
not reported as dependencies keep their relative order, entries reported as
dependencies move to the tail preserving their relative order, and nothing
is added or removed. -/
theorem reloc_pass_is_permutation (used deps : List α)
    (hu : used.Nodup) (hd : deps.Nodup) :
    (relocStep used 0 used deps).1.Perm used ∧
    (relocStep used 0 used deps).1
      = used.filter (fun u => decide (u ∉ deps))
        ++ used.filter (fun u => decide (u ∈ deps)) := by
  have h := relocStep_append used [] [] deps hu hd
  simp only [List.nil_append, List.append_nil, List.length_nil] at h
  refine ⟨?_, by rw [h]⟩
  rw [h]
  dsimp only
  rw [filter_mem_eq_filter_not_not]
  exact List.filter_append_perm _ used

/-- C10 (witness): the relocation pass on `[1, 2, 3]` with dependency set
`[2, 5]`. -/
theorem reloc_pass_is_permutation_witness :
    (relocStep [1, 2, 3] 0 [1, 2, 3] [2, 5]).1.Perm [1, 2, 3] ∧
    (relocStep [1, 2, 3] 0 [1, 2, 3] [2, 5]).1
      = [1, 2, 3].filter (fun u => decide (u ∉ ([2, 5] : List Nat)))
        ++ [1, 2, 3].filter (fun u => decide (u ∈ ([2, 5] : List Nat))) :=
  reloc_pass_is_permutation [1, 2, 3] [2, 5] (by decide) (by decide)

/-!
## Claim C5: the used-library list never contains duplicates
-/

/-- C5: provided the initial used-library list is duplicate-free (it comes
from a Python `set`) and every scan result is a set, the used-library list
contains no duplicate at any point: after each single-library processing
step, and after any number of outer iterations from any reachable state —
in particular in the final returned order. -/
theorem used_libs_never_duplicated (scanF : α → List α)
    (hs : ∀ l, (scanF l).Nodup) :
    (∀ (used : List α) (lib : α), used.Nodup →
       (processLib scanF used lib).Nodup) ∧
    ∀ (n : Nat) (used scanned : List α), used.Nodup →
      ((resolveIter scanF n (used, scanned)).1).Nodup := by
  constructor
  · intro used lib hu
    exact processLib_nodup scanF used lib hu (hs lib)
  · intro n
    induction n with
    | zero => intro used scanned hu; exact hu
    | succ n ih =>
      intro used scanned hu
      by_cases hfix : used.toFinset = scanned.toFinset
      · simpa [resolveIter, hfix] using hu
      · simp only [resolveIter, if_neg hfix]
        exact ih _ _ (scanPass_nodup scanF hs _ used hu)

/-- C5 (witness): two outer iterations on a concrete duplicate-free
starting list. -/
theorem used_libs_never_duplicated_witness :
    ((resolveIter (fun _ => ([] : List Nat)) 2 ([0, 1], [])).1).Nodup :=
  (used_libs_never_duplicated (fun _ => ([] : List Nat))
    (fun _ => List.nodup_nil)).2 2 [0, 1] [] (by decide)

/-!
## Claim C6: termination of the fixed-point closure
-/

/-- Invariant-based progress argument: as long as the scanned set is a
subset of the used set and everything stays inside the finite universe `U`,
`U.card - |scanned|` bounds the number of outer iterations still needed to
reach the fixed point. -/
theorem resolveIter_reaches_fixed (scanF : α → List α) (U : Finset α)
    (hs : ∀ l, (scanF l).Nodup) (hcl : ∀ l ∈ U, ∀ x ∈ scanF l, x ∈ U) :
    ∀ (n : Nat) (used scanned : List α),
      used.Nodup → scanned.Nodup →
      (∀ x ∈ scanned, x ∈ used) →
      (∀ x ∈ used, x ∈ U) →
      U.card ≤ scanned.toFinset.card + n →
      ((resolveIter scanF n (used, scanned)).1).toFinset
        = ((resolveIter scanF n (used, scanned)).2).toFinset := by
  intro n
  induction n with
  | zero =>
    intro used scanned hu hsc hss hUu hcard
    simp only [resolveIter]
    have hscU : scanned.toFinset ⊆ U := by
      intro x hx
      exact hUu x (hss x (List.mem_toFinset.mp hx))
    have hscEq : scanned.toFinset = U :=
      Finset.eq_of_subset_of_card_le hscU (by omega)
    have husedU : used.toFinset ⊆ U := by
      intro x hx
      exact hUu x (List.mem_toFinset.mp hx)
    have hsu : scanned.toFinset ⊆ used.toFinset := by
      intro x hx
      exact List.mem_toFinset.mpr (hss x (List.mem_toFinset.mp hx))
    exact Finset.Subset.antisymm (hscEq ▸ husedU) hsu
  | succ n ih =>
    intro used scanned hu hsc hss hUu hcard
    by_cases hfix : used.toFinset = scanned.toFinset
    · simp [resolveIter, hfix]
    · simp only [resolveIter, if_neg hfix]
      have hpendU : ∀ x ∈ used.filter (fun u => decide (u ∉ scanned)),
          x ∈ used := by
        intro x hx
        exact (List.mem_filter.mp hx).1
      have hex : ∃ x, x ∈ used ∧ x ∉ scanned := by
        by_contra hne
        push_neg at hne
        apply hfix
        apply Finset.Subset.antisymm
        · intro x hx
          exact List.mem_toFinset.mpr (hne x (List.mem_toFinset.mp hx))
        · intro x hx
          exact List.mem_toFinset.mpr (hss x (List.mem_toFinset.mp hx))
      obtain ⟨w, hwu, hwsc⟩ := hex
      have hwpend : w ∈ used.filter (fun u => decide (u ∉ scanned)) := by
        rw [List.mem_filter, decide_eq_true_eq]
        exact ⟨hwu, hwsc⟩
      apply ih
      · exact scanPass_nodup scanF hs _ used hu
      · apply hsc.append (hu.filter _)
        intro x hx hxp
        rw [List.mem_filter, decide_eq_true_eq] at hxp
        exact hxp.2 hx
      · intro x hx
        rw [mem_scanPass scanF hs _ used hu x]
        rcases List.mem_append.mp hx with hx | hx
        · exact Or.inl (hss x hx)
        · exact Or.inl (hpendU x hx)
      · intro x hx
        rw [mem_scanPass scanF hs _ used hu x] at hx
        rcases hx with hx | ⟨l, hl, hx⟩
        · exact hUu x hx
        · exact hcl l (hUu l (hpendU l hl)) x hx
      · have hsub : scanned.toFinset ⊂
            (scanned ++ used.filter (fun u => decide (u ∉ scanned))).toFinset := by
          rw [List.toFinset_append]
          constructor
          · exact Finset.subset_union_left
          · intro hsup
            have hw : w ∈ scanned.toFinset :=
              hsup (Finset.mem_union_right _ (List.mem_toFinset.mpr hwpend))
            exact hwsc (List.mem_toFinset.mp hw)
        have := Finset.card_lt_card hsub
        omega

/-- `resolveIter_of_fixed`, stated on a state pair. -/
theorem resolveIter_of_fixed_pair (scanF : α → List α) (n : Nat)
    (st : List α × List α) (h : st.1.toFinset = st.2.toFinset) :
    resolveIter scanF n st = st := by
  obtain ⟨u, s⟩ := st
  exact resolveIter_of_fixed scanF n u s h

/-- Splitting the fuel of the outer loop. -/
theorem resolveIter_add (scanF : α → List α) (m : Nat) :
    ∀ (n : Nat) (st : List α × List α),
      resolveIter scanF (n + m) st
        = resolveIter scanF m (resolveIter scanF n st) := by
  intro n
  induction n with
  | zero => intro st; simp [resolveIter, Nat.zero_add]
  | succ n ih =>
    intro st
    obtain ⟨used, scanned⟩ := st
    by_cases hfix : used.toFinset = scanned.toFinset
    · rw [resolveIter_of_fixed scanF (n + 1) used scanned hfix,
        resolveIter_of_fixed scanF (n + 1 + m) used scanned hfix,
        resolveIter_of_fixed scanF m used scanned hfix]
    · have hstep : n + 1 + m = (n + m) + 1 := by omega
      rw [hstep]
      simp only [resolveIter, if_neg hfix]
      exact ih _

/-- C6: the fixed-point closure terminates within at most `N` outer
iterations, where `N = U.card` is the number of reachable library roots:
for any finite universe `U` containing the initial used libraries and
closed under scanning, the state after `U.card` outer iterations satisfies
the loop's exit condition (scanned set equals used set), and running one
more iteration changes nothing. -/
theorem resolve_terminates_within_universe_card (scanF : α → List α)
    (U : Finset α) (used : List α) (hu : used.Nodup)
    (hs : ∀ l, (scanF l).Nodup) (hused : ∀ x ∈ used, x ∈ U)
    (hcl : ∀ l ∈ U, ∀ x ∈ scanF l, x ∈ U) :
    ((resolveIter scanF U.card (used, ([] : List α))).1).toFinset
      = ((resolveIter scanF U.card (used, ([] : List α))).2).toFinset ∧
    resolveIter scanF (U.card + 1) (used, ([] : List α))
      = resolveIter scanF U.card (used, ([] : List α)) := by
  have hfix := resolveIter_reaches_fixed scanF U hs hcl U.card used []
    hu List.nodup_nil (fun x hx => absurd hx (List.not_mem_nil x)) hused
    (by simp)
  refine ⟨hfix, ?_⟩
  rw [resolveIter_add scanF 1 U.card (used, [])]
  exact resolveIter_of_fixed_pair scanF 1 _ hfix

/-!
## Claim C7: architecture-specific subtree selection
-/

/-- `list_subdirs` with a one-element include list filters the children by
name equality. -/
theorem list_subdirs_incl_singleton (a : String) (t : FSTree) :
    list_subdirs_incl [a] t
      = t.children.filter (fun c => decide (c.name = a)) := by
  unfold list_subdirs_incl
  apply List.filter_congr
  intro x _
  simp

/-- Closed form of the `arch` special handling (lines 342-350): the first
child named after the board architecture is selected; failing that, the
first child named `default`; failing that, the subtree contributes no
flags. -/
theorem incFlagsOfSubdir_arch (board_arch : String) (cs : List FSTree)
    (subpath : String) :
    incFlagsOfSubdir board_arch (FSTree.node "arch" cs) subpath
      = match cs.filter (fun c => decide (c.name = board_arch)),
              cs.filter (fun c => decide (c.name = "default")) with
        | c :: _, _ =>
          ("-I" ++ (subpath ++ "/" ++ c.name)) ::
            (list_subdirs_rec lib_excludes c (subpath ++ "/" ++ c.name)).map
              (fun p => "-I" ++ p)
        | [], c :: _ =>
          ("-I" ++ (subpath ++ "/" ++ c.name)) ::
            (list_subdirs_rec lib_excludes c (subpath ++ "/" ++ c.name)).map
              (fun p => "-I" ++ p)
        | [], [] => [] := by
  unfold incFlagsOfSubdir
  rw [show (FSTree.node "arch" cs).name = "arch" from rfl, if_pos rfl,
    list_subdirs_incl_singleton, list_subdirs_incl_singleton,
    show (FSTree.node "arch" cs).children = cs from rfl]
  cases hsel : cs.filter (fun c => decide (c.name = board_arch)) with
  | cons c rest => simp
  | nil =>
    cases hdef : cs.filter (fun c => decide (c.name = "default")) with
    | cons c rest => simp
    | nil => simp

/-- C7: for every library root containing an immediate subdirectory named
`arch` with arbitrary children, the indexer emits the root's include flag
and then exactly the subtree flags of the child matching the target
architecture when present, otherwise of the child named `default` when
present, otherwise nothing from that subtree.  In particular with children
`{avr, sam, default}` and target `sam`, the `sam` subtree is covered and
the `avr` subtree excluded; with absent target `esp8266`, the `default`
subtree is used. -/
theorem arch_subdir_selects_target_then_default
    (rootName rootPath targetArch : String) (cs : List FSTree) :
    recursive_inc_lib_flags
        [(FSTree.node rootName [FSTree.node "arch" cs], rootPath)] targetArch
      = ("-I" ++ rootPath) ::
        (match cs.filter (fun c => decide (c.name = targetArch)),
               cs.filter (fun c => decide (c.name = "default")) with
         | c :: _, _ =>
           ("-I" ++ (rootPath ++ "/" ++ "arch" ++ "/" ++ c.name)) ::
             (list_subdirs_rec lib_excludes c
                (rootPath ++ "/" ++ "arch" ++ "/" ++ c.name)).map
               (fun p => "-I" ++ p)
         | [], c :: _ =>
           ("-I" ++ (rootPath ++ "/" ++ "arch" ++ "/" ++ c.name)) ::
             (list_subdirs_rec lib_excludes c
                (rootPath ++ "/" ++ "arch" ++ "/" ++ c.name)).map
               (fun p => "-I" ++ p)
         | [], [] => []) := by
  have hexcl : list_subdirs_excl lib_excludes
      (FSTree.node rootName [FSTree.node "arch" cs])
      = [FSTree.node "arch" cs] := by
    simp [list_subdirs_excl, lib_excludes, FSTree.children, FSTree.name]
  simp only [recursive_inc_lib_flags, List.map_cons, List.map_nil, hexcl]
  rw [show (FSTree.node "arch" cs).name = "arch" from rfl,
    incFlagsOfSubdir_arch]
  cases hsel : cs.filter (fun c => decide (c.name = targetArch)) with
  | cons c rest => simp
  | nil =>
    cases hdef : cs.filter (fun c => decide (c.name = "default")) with
    | cons c rest => simp
    | nil => simp

/-!
## Claim C8: determinism of the pipeline
-/

/-- C8: the pipeline output (final flag sequence and library link order) is
a function of its inputs alone: two runs over the same board profile, the
same environment, the same user flags and extensionally equal filesystem
snapshots (scan results and library directories) produce identical
results. -/
theorem pipeline_deterministic (inp1 inp2 : PipelineInputs α)
    (henv : inp1.env = inp2.env) (hboard : inp1.board = inp2.board)
    (htok : inp1.userCppTokens = inp2.userCppTokens)
    (hscan : ∀ l, inp1.scanF l = inp2.scanF l)
    (hinit : inp1.initialUsed = inp2.initialUsed)
    (hfuel : inp1.fuel = inp2.fuel)
    (hsnap : ∀ l, inp1.libSnapshot l = inp2.libSnapshot l) :
    pipeline inp1 = pipeline inp2 := by
  obtain ⟨e1, b1, t1, s1, i1, f1, l1⟩ := inp1
  obtain ⟨e2, b2, t2, s2, i2, f2, l2⟩ := inp2
  simp only at henv hboard htok hinit hfuel hscan hsnap
  subst henv hboard htok hinit hfuel
  have hs : s1 = s2 := funext hscan
  have hl : l1 = l2 := funext hsnap
  subst hs hl
  rfl

/-- C8 (witness): two runs on one concrete input bundle. -/
theorem pipeline_deterministic_witness :
    pipeline (⟨⟨"core", "sys", "var", true, 105, "-Os"⟩,
        ⟨"avr", ⟨"m", "f", "B", "std", none, none, none⟩⟩,
        ["-DX"], fun l => if l = 0 then [1] else [], [0], 2,
        fun _ => (FSTree.node "L" [], "lib/L")⟩ : PipelineInputs Nat)
      = pipeline (⟨⟨"core", "sys", "var", true, 105, "-Os"⟩,
          ⟨"avr", ⟨"m", "f", "B", "std", none, none, none⟩⟩,
          ["-DX"], fun l => if l = 0 then [1] else [], [0], 2,
          fun _ => (FSTree.node "L" [], "lib/L")⟩ : PipelineInputs Nat) :=
  pipeline_deterministic _ _ rfl rfl rfl (fun _ => rfl) rfl rfl (fun _ => rfl)

/-!
## Claim C9: the dependency-line matching discipline
-/

/-- `listStartsWith` decides the prefix relation. -/
theorem listStartsWith_iff (p : List Char) : ∀ (s : List Char),
    listStartsWith p s = true ↔ ∃ t, s = p ++ t := by
  induction p with
  | nil => intro s; simp [listStartsWith]
  | cons c cs ih =>
    intro s
    cases s with
    | nil => simp [listStartsWith]
    | cons x xs =>
      simp only [listStartsWith, Bool.and_eq_true, decide_eq_true_eq, ih]
      constructor
      · rintro ⟨rfl, t, rfl⟩
        exact ⟨t, rfl⟩
      · rintro ⟨t, ht⟩
        injection ht with h1 h2
        exact ⟨h1.symm, t, h2⟩

/-- The literal matcher accepts a line exactly when the line decomposes
around an occurrence of the library path that is immediately preceded by a
whitespace character and immediately followed by the path separator. -/
theorem litLineMatches_iff (lib : List Char) (sep : Char) (line : List Char) :
    litLineMatches lib sep line = true ↔
      ∃ pre w rest, pyWhitespace w = true ∧
        line = pre ++ w :: (lib ++ sep :: rest) := by
  induction line with
  | nil =>
    constructor
    · intro h
      simp [litLineMatches] at h
    · rintro ⟨pre, w, rest, _, h⟩
      cases pre <;> simp at h
  | cons c cs ih =>
    simp only [litLineMatches, Bool.or_eq_true, Bool.and_eq_true, ih,
      listStartsWith_iff]
    constructor
    · rintro (⟨hw, t, ht⟩ | ⟨pre, w, rest, hw, hr⟩)
      · exact ⟨[], c, t, hw, by simp [ht]⟩
      · exact ⟨c :: pre, w, rest, hw, by simp [hr]⟩
    · rintro ⟨pre, w, rest, hw, hr⟩
      cases pre with
      | nil =>
        simp only [List.nil_append] at hr
        injection hr with h1 h2
        exact Or.inl ⟨h1 ▸ hw, rest, by simp [h2]⟩
      | cons p ps =>
        simp only [List.cons_append] at hr
        injection hr with h1 h2
        exact Or.inr ⟨ps, w, rest, hw, h2⟩

/-- On a library path free of regex special characters, the unescaped
pattern degenerates to the literal prefix test. -/
theorem libSepPrefix_eq_of_no_special (lib : List Char) (sep : Char)
    (hlib : ∀ c ∈ lib, c ∉ reSpecialChars) :
    ∀ s, libSepPrefix lib sep s = listStartsWith (lib ++ [sep]) s := by
  induction lib with
  | nil =>
    intro s
    cases s <;> simp [libSepPrefix, listStartsWith, eq_comm]
  | cons p ps ih =>
    intro s
    have hp : p ≠ '.' := by
      intro e
      exact hlib p (List.mem_cons_self p ps) (by rw [e]; decide)
    cases s with
    | nil => simp [libSepPrefix, listStartsWith]
    | cons x xs =>
      simp only [libSepPrefix, List.cons_append, listStartsWith,
        reCharMatches, if_neg hp, List.append_eq]
      rw [ih (fun c hc => hlib c (List.mem_cons_of_mem p hc)) xs]

/-- On a library path free of regex special characters, the source's
matcher coincides with the literal matcher. -/
theorem depLineMatches_eq_lit_of_no_special (lib : List Char) (sep : Char)
    (hlib : ∀ c ∈ lib, c ∉ reSpecialChars) :
    ∀ line, depLineMatches lib sep line = litLineMatches lib sep line := by
  intro line
  induction line with
  | nil => rfl
  | cons c cs ih =>
    simp only [depLineMatches, litLineMatches, ih,
      libSepPrefix_eq_of_no_special lib sep hlib]

/-- C9 (counterexample): because the library path is interpolated into the
regex unescaped, a root containing a regex special character can be
recorded from a line that nowhere contains the literal path: for the root
`a.b`, the dot matches `x`, so the line ` axb/` records the root although
no occurrence of `a.b` preceded by whitespace and followed by `/` exists
in it. -/
theorem dotted_root_recorded_without_literal_occurrence :
    (['a', '.', 'b'] ∈ scanDepsFile ['d'] [['a', '.', 'b']] '/'
        [[' ', 'a', 'x', 'b', '/']]) ∧
    ¬ ∃ pre w rest, pyWhitespace w = true ∧
        ([' ', 'a', 'x', 'b', '/'] : List Char)
          = pre ++ w :: (['a', '.', 'b'] ++ '/' :: rest) := by
  constructor
  · decide
  · intro h
    have hlit := (litLineMatches_iff ['a', '.', 'b'] '/'
      [' ', 'a', 'x', 'b', '/']).mpr h
    have hfalse : litLineMatches ['a', '.', 'b'] '/'
        [' ', 'a', 'x', 'b', '/'] = false := by decide
    rw [hfalse] at hlit
    exact Bool.noConfusion hlit

/-- C9 (amended): for every library root whose path is free of regex
special characters (so that the unescaped interpolation is harmless),
`_scan_dependencies` records the root for a dependency file exactly when
the root differs from the directory being scanned and some line contains
the root's path immediately preceded by a whitespace character and
immediately followed by the path separator.  Because every match requires
the nonempty prefix `pre ++ [w]`, an occurrence of the root's path at the
very beginning of a line (no preceding whitespace) never causes a match,
and the scanned directory itself is never recorded. -/
theorem dep_scan_membership_characterization (dir : List Char)
    (libs : List (List Char)) (sep : Char) (fileLines : List (List Char))
    (lib : List Char) (hlib : ∀ c ∈ lib, c ∉ reSpecialChars) :
    lib ∈ scanDepsFile dir libs sep fileLines ↔
      lib ∈ libs ∧ lib ≠ dir ∧
        ∃ line ∈ fileLines, ∃ pre w rest,
          pyWhitespace w = true ∧
          line = pre ++ w :: (lib ++ sep :: rest) := by
  simp only [scanDepsFile, List.mem_filter, Bool.and_eq_true,
    decide_eq_true_eq, List.any_eq_true,
    depLineMatches_eq_lit_of_no_special lib sep hlib, litLineMatches_iff]

/-- C9 (witness): the amended characterization applied to the
special-free root `ab`, deriving that the line ` ab/` records it. -/
theorem dep_scan_membership_characterization_witness :
    ['a', 'b'] ∈ scanDepsFile ['d'] [['a', 'b']] '/' [[' ', 'a', 'b', '/']] :=
  (dep_scan_membership_characterization ['d'] [['a', 'b']] '/'
      [[' ', 'a', 'b', '/']] ['a', 'b'] (by decide)).mpr
    ⟨by decide, by decide,
      ⟨[' ', 'a', 'b', '/'], by decide, [], ' ', [], by decide, by decide⟩⟩

/-- C6 (witness): a concrete universe `{0, 1}` of two reachable roots,
starting from `[0]` with `0` depending on `1`. -/
theorem resolve_terminates_within_universe_card_witness :
    ((resolveIter (fun l => if l = 0 then [1] else ([] : List Nat))
        ({0, 1} : Finset Nat).card ([0], [])).1).toFinset
      = ((resolveIter (fun l => if l = 0 then [1] else ([] : List Nat))
          ({0, 1} : Finset Nat).card ([0], [])).2).toFinset ∧
    resolveIter (fun l => if l = 0 then [1] else ([] : List Nat))
        (({0, 1} : Finset Nat).card + 1) ([0], [])
      = resolveIter (fun l => if l = 0 then [1] else ([] : List Nat))
          ({0, 1} : Finset Nat).card ([0], []) :=
  resolve_terminates_within_universe_card
    (fun l => if l = 0 then [1] else ([] : List Nat)) ({0, 1} : Finset Nat)
    [0] (by decide)
    (fun l => by by_cases h : l = 0 <;> simp [h])
    (by decide) (by decide)

end Ino
